import Mathlib

/-
Verification of the loupe reverse-mode autodiff library (src/loupe).

The embedding models numeric buffers with complex-rational entries: a
`Cx` value stands for one complex number held in a NumPy ndarray
(float64/complex128 arithmetic is modelled exactly over ℚ, which is
sound for the algebraic identities checked here).  N-dimensional arrays
are modelled as a shape (list of dimension sizes, NumPy order) together
with a total valuation function from multi-indices to entries; the parts
of NumPy used by the source (elementwise broadcasting, axis sums,
boolean indexing, matrix products) are given explicit definitions.
-/

attribute [local semireducible] Rat.add Rat.mul Rat.sub Rat.inv

instance {ε α : Type} [DecidableEq ε] [DecidableEq α] : DecidableEq (Except ε α) := fun x y =>
  match x, y with
  | .ok a, .ok b =>
    if h : a = b then isTrue (by rw [h]) else isFalse (fun hc => h (Except.ok.inj hc))
  | .ok _, .error _ => isFalse (fun hc => Except.noConfusion hc)
  | .error _, .ok _ => isFalse (fun hc => Except.noConfusion hc)
  | .error e, .error f =>
    if h : e = f then isTrue (by rw [h]) else isFalse (fun hc => h (Except.error.inj hc))

/-- Complex numbers with rational components, the scalar type of the
embedding (models one entry of a NumPy float/complex array). -/
@[ext]
structure Cx where
  re : ℚ
  im : ℚ
deriving DecidableEq, Repr

instance : Zero Cx := ⟨⟨0, 0⟩⟩

instance : One Cx := ⟨⟨1, 0⟩⟩

instance : Add Cx := ⟨fun a b => ⟨a.re + b.re, a.im + b.im⟩⟩

instance : Neg Cx := ⟨fun a => ⟨-a.re, -a.im⟩⟩

instance : Mul Cx := ⟨fun a b => ⟨a.re * b.re - a.im * b.im, a.re * b.im + a.im * b.re⟩⟩

@[simp] theorem Cx.zero_re : (0 : Cx).re = 0 := rfl

@[simp] theorem Cx.zero_im : (0 : Cx).im = 0 := rfl

@[simp] theorem Cx.one_re : (1 : Cx).re = 1 := rfl

@[simp] theorem Cx.one_im : (1 : Cx).im = 0 := rfl

@[simp] theorem Cx.add_re (a b : Cx) : (a + b).re = a.re + b.re := rfl

@[simp] theorem Cx.add_im (a b : Cx) : (a + b).im = a.im + b.im := rfl

@[simp] theorem Cx.neg_re (a : Cx) : (-a).re = -a.re := rfl

@[simp] theorem Cx.neg_im (a : Cx) : (-a).im = -a.im := rfl

@[simp] theorem Cx.mul_re (a b : Cx) : (a * b).re = a.re * b.re - a.im * b.im := rfl

@[simp] theorem Cx.mul_im (a b : Cx) : (a * b).im = a.re * b.im + a.im * b.re := rfl

instance : CommRing Cx where
  nsmul := nsmulRec
  zsmul := zsmulRec
  add_assoc a b c := by ext <;> simp <;> ring
  zero_add a := by ext <;> simp
  add_zero a := by ext <;> simp
  add_comm a b := by ext <;> simp <;> ring
  left_distrib a b c := by ext <;> simp <;> ring
  right_distrib a b c := by ext <;> simp <;> ring
  zero_mul a := by ext <;> simp
  mul_zero a := by ext <;> simp
  mul_assoc a b c := by ext <;> simp <;> ring
  one_mul a := by ext <;> simp
  mul_one a := by ext <;> simp
  mul_comm a b := by ext <;> simp <;> ring
  neg_add_cancel a := by ext <;> simp

/-- Embeds a rational (a real NumPy scalar) into `Cx`. -/
def Cx.ofRat (q : ℚ) : Cx := ⟨q, 0⟩

/-- Complex conjugation, models `np.conj`. -/
def Cx.conj (a : Cx) : Cx := ⟨a.re, -a.im⟩

/-- Multiplicative inverse (models float complex division). -/
def Cx.inv (z : Cx) : Cx :=
  let n := z.re ^ 2 + z.im ^ 2
  ⟨z.re / n, -z.im / n⟩

/-- Integer power, models `np.power` with an integer exponent. -/
def cpow (z : Cx) (e : ℤ) : Cx :=
  if 0 ≤ e then z ^ e.toNat else (Cx.inv z) ^ (-e).toNat

/- ===================== NumPy ndarray model ===================== -/

/-- A NumPy shape: list of dimension sizes, outermost axis first. -/
abbrev Shape := List ℕ

/-- A multi-index into an array, one coordinate per axis. -/
abbrev Idx := List ℕ

/-- An ndarray: a shape plus a total valuation on multi-indices (values
at indices outside the shape are junk and never relied upon). -/
structure Arr where
  shape : Shape
  val : Idx → Cx

/-- `idx` addresses a cell of an array of shape `s`. -/
def validIdx (s : Shape) (idx : Idx) : Prop :=
  idx.length = s.length ∧ ∀ n, n < s.length → idx.getD n 0 < s.getD n 1

instance (s : Shape) (idx : Idx) : Decidable (validIdx s idx) := by
  unfold validIdx; infer_instance

/-- The dimension of shape `s` that NumPy aligns with axis `n` of a
broadcast result of rank `k` (shapes are aligned at their trailing
axes; missing leading axes count as size 1). -/
def alignDim (s : Shape) (k n : ℕ) : ℕ :=
  if k - n ≤ s.length ∧ 0 < k - n then s.getD (s.length - (k - n)) 1 else 1

/-- The NumPy broadcast result shape of shapes `s` and `t` (meaningful
when `broadcastCompat s t` holds). -/
def npBroadcastShape (s t : Shape) : Shape :=
  let k := max s.length t.length
  (List.range k).map (fun n =>
    let a := alignDim s k n
    let b := alignDim t k n
    if a = 1 then b else a)

/-- NumPy broadcast compatibility of two shapes: aligned dimensions are
equal or one of them is 1. -/
def broadcastCompat (s t : Shape) : Prop :=
  ∀ n, n < max s.length t.length →
    alignDim s (max s.length t.length) n = 1 ∨
    alignDim t (max s.length t.length) n = 1 ∨
    alignDim s (max s.length t.length) n = alignDim t (max s.length t.length) n

instance (s t : Shape) : Decidable (broadcastCompat s t) := by
  unfold broadcastCompat; infer_instance

/-- Source index of the operand of shape `s` feeding the cell `idx` of a
broadcast result: trailing coordinates of `idx`, clamped to 0 on the
operand's size-1 axes. -/
def bIdx (s : Shape) (idx : Idx) : Idx :=
  List.zipWith (fun d j => if d = 1 then 0 else j) s (idx.drop (idx.length - s.length))

/-- `np.add` under broadcasting. -/
def npAdd (a b : Arr) : Arr :=
  { shape := npBroadcastShape a.shape b.shape,
    val := fun idx => a.val (bIdx a.shape idx) + b.val (bIdx b.shape idx) }

/-- `np.multiply` under broadcasting. -/
def npMul (a b : Arr) : Arr :=
  { shape := npBroadcastShape a.shape b.shape,
    val := fun idx => a.val (bIdx a.shape idx) * b.val (bIdx b.shape idx) }

/-- `np.conj`, elementwise. -/
def conjArr (a : Arr) : Arr := { shape := a.shape, val := fun idx => (a.val idx).conj }

/-- `grad.sum(axis=0)`: drops the leading axis, summing over it. -/
def sumAxis0 (g : Arr) : Arr :=
  { shape := g.shape.tail,
    val := fun idx => ∑ i ∈ Finset.range (g.shape.headD 0), g.val (i :: idx) }

/-- `grad.sum(axis=n, keepdims=True)`: sums over axis `n`, whose size
becomes 1. -/
def sumAxisKeepdims (n : ℕ) (g : Arr) : Arr :=
  { shape := g.shape.set n 1,
    val := fun idx => ∑ i ∈ Finset.range (g.shape.getD n 0), g.val (idx.set n i) }

/- ===================== loupe.numeric._broadcast_grad ===================== -/

/-- `loupe.numeric._broadcast_grad(grad, array_shape)`: sum out the added
leading dimensions, then sum (keeping dims) across the size-1 dimensions
of `array_shape`. -/
def broadcastGrad (grad : Arr) (arrayShape : Shape) : Arr :=
  let ndimsAdded := grad.shape.length - arrayShape.length
  let g := sumAxis0^[ndimsAdded] grad
  (List.range arrayShape.length).foldl
    (fun g n => if arrayShape.getD n 0 = 1 then sumAxisKeepdims n g else g) g

/- ===================== loupe.array (leaf) ===================== -/

/-- NumPy dtypes that occur in the embedding. -/
inductive DType where
  | float32
  | float64
  | int64
  | complex64
  | complex128
deriving DecidableEq, Repr

/-- The check `self.dtype in (np.float32, np.float64)` from
`array.backward`. -/
def DType.isFloatPair : DType → Bool
  | .float32 => true
  | .float64 => true
  | _ => false

/-- A `loupe.array` leaf: element dtype, `requires_grad` flag and the
gradient accumulator buffer (`data` itself is not needed by the claims
about `backward`, only its dtype). -/
structure LoupeArray where
  dtype : DType
  requiresGrad : Bool
  grad : Arr

namespace array

/-- `loupe.array.backward(grad)`: no-op unless `requires_grad`; otherwise
accumulate `grad` (only its real part for float32/float64 data) into
`self.grad` with `+=`. -/
def backward (a : LoupeArray) (grad : Arr) : LoupeArray :=
  if a.requiresGrad = false then a
  else if a.dtype.isFloatPair then
    { a with grad := ⟨a.grad.shape, fun idx => a.grad.val idx + Cx.ofRat (grad.val idx).re⟩ }
  else
    { a with grad := ⟨a.grad.shape, fun idx => a.grad.val idx + grad.val idx⟩ }

end array

/- ===================== loupe.numeric.add / multiply / power ===================== -/

namespace add

/-- `add.forward`: `np.add(left, right)` on the operands' data. -/
def forward (left right : Arr) : Arr := npAdd left right

/-- `add.backward(grad)` for a graph whose two inputs are leaves: each
operand with `requires_grad` receives `_broadcast_grad(grad, its shape)`
via its own `backward`. -/
def backwardLeaves (left right : LoupeArray) (leftShape rightShape : Shape)
    (grad : Arr) : LoupeArray × LoupeArray :=
  (if left.requiresGrad then array.backward left (broadcastGrad grad leftShape) else left,
   if right.requiresGrad then array.backward right (broadcastGrad grad rightShape) else right)

end add

namespace multiply

/-- `multiply.forward`: `np.multiply(left, right)`. -/
def forward (left right : Arr) : Arr := npMul left right

/-- Gradient `multiply.backward` dispatches to its left input:
`_broadcast_grad(np.conj(right) * grad, left.shape)`. -/
def leftGrad (rightData grad : Arr) (leftShape : Shape) : Arr :=
  broadcastGrad (npMul (conjArr rightData) grad) leftShape

/-- Gradient `multiply.backward` dispatches to its right input:
`_broadcast_grad(np.conj(left) * grad, right.shape)`. -/
def rightGrad (leftData grad : Arr) (rightShape : Shape) : Arr :=
  broadcastGrad (npMul (conjArr leftData) grad) rightShape

/-- `multiply.backward(grad)` for a graph whose two inputs are leaves. -/
def backwardLeaves (left right : LoupeArray) (leftData rightData : Arr)
    (grad : Arr) : LoupeArray × LoupeArray :=
  (if left.requiresGrad then array.backward left (leftGrad rightData grad leftData.shape) else left,
   if right.requiresGrad then array.backward right (rightGrad leftData grad rightData.shape) else right)

end multiply

namespace power

/-- The gradient `power.backward` computes for its base input:
`self.exp * np.power(input, self.exp - 1) * grad` (`self.exp` is the
constant or the exponent node's value, never differentiated). -/
def baseGrad (input : Arr) (e : ℤ) (grad : Arr) : Arr :=
  npMul { shape := input.shape, val := fun idx => Cx.ofRat (e : ℚ) * cpow (input.val idx) (e - 1) } grad

/-- `power.backward(grad)` with the base a leaf, and — when the exponent
is itself a node — the exponent leaf alongside: the source calls only
`self.input.backward(grad)`; the exponent is never touched. -/
def backwardLeaves (base expLeaf : LoupeArray) (input : Arr) (e : ℤ)
    (grad : Arr) : LoupeArray × LoupeArray :=
  (array.backward base (baseGrad input e grad), expLeaf)

end power

/- ===================== Matrices (for loupe.fourier.dft2) ===================== -/

/-- A dense matrix of `Cx` entries (entries outside `rows × cols` are
junk). -/
structure Mtx where
  rows : ℕ
  cols : ℕ
  val : ℕ → ℕ → Cx

namespace Mtx

/-- `np.dot` of two matrices. -/
def dot (a b : Mtx) : Mtx :=
  ⟨a.rows, b.cols, fun i j => ∑ k ∈ Finset.range a.cols, a.val i k * b.val k j⟩

/-- Matrix transpose (`.T`). -/
def T (a : Mtx) : Mtx := ⟨a.cols, a.rows, fun i j => a.val j i⟩

/-- Elementwise conjugation (`np.conj`). -/
def conj (a : Mtx) : Mtx := ⟨a.rows, a.cols, fun i j => (a.val i j).conj⟩

/-- Multiplication by a real scalar (`arr * c` / `arr *= c`). -/
def scale (c : ℚ) (a : Mtx) : Mtx := ⟨a.rows, a.cols, fun i j => Cx.ofRat c * a.val i j⟩

end Mtx

/- ===================== loupe.fourier.dft2 ===================== -/

/-- The observable outcome of one `dft2.forward` call on a single 2-d
slice: the array object cached by `cache_for_backward` (as it stands
after `forward` returns) and the returned result.  The kernel matrices
`Wr`/`Wc` (complex exponential outer products) enter as data. -/
structure Dft2State where
  cache : Mtx
  output : Mtx

namespace dft2

/-- `dft2.forward` for a 2-d input slice `x` with kernels `Wr`, `Wc` and
normalization coefficient `normCoeff = np.prod(np.sqrt(np.abs(alpha)))`.
The source computes `result = np.dot(Wr.dot(x), Wc)`, passes `result`
to `cache_for_backward`, and then executes `result *= norm_coeff` when
`unitary` — an in-place multiplication on the very array object already
stored in the cache, so after `forward` both the cache and the returned
value hold the scaled result. -/
def forward (Wr Wc x : Mtx) (unitary : Bool) (normCoeff : ℚ) : Dft2State :=
  let result := (Wr.dot x).dot Wc
  if unitary then
    ⟨Mtx.scale normCoeff result, Mtx.scale normCoeff result⟩
  else
    ⟨result, result⟩

/-- `dft2.backward` for a 2-d gradient slice: `grad_clean = grad *
norm_coeff`, then `np.dot(W_row_conj.T.dot(grad_clean), W_col_conj.T)`
(`WrowConj`/`WcolConj` are the cached conjugated kernels). -/
def backward (WrowConj WcolConj : Mtx) (normCoeff : ℚ) (grad : Mtx) : Mtx :=
  let gradClean := Mtx.scale normCoeff grad
  ((WrowConj.T).dot gradClean).dot (WcolConj.T)

end dft2

/- ===================== loupe.einsum.einsum.backward ===================== -/

namespace einsum

/-- The substituted input subscripts used by `einsum.backward` for input
`i`: the forward output subscript replaces the `i`-th forward input
subscript. -/
def substitutedSubs (inSubsFw : List (List Char)) (outSubFw : List Char) (i : ℕ) :
    List (List Char) :=
  (List.range inSubsFw.length).map (fun j => if j = i then outSubFw else inSubsFw.getD j [])

/-- `','.join(...)` of the substituted subscripts (the comma characters
are part of the joined string, exactly as in the source's `set(in_subs)`). -/
def joinedSubs (inSubsFw : List (List Char)) (outSubFw : List Char) (i : ℕ) : List Char :=
  List.intercalate [','] (substitutedSubs inSubsFw outSubFw i)

/-- The backward contraction's target output subscript for input `i`:
the original label string of operand `i`. -/
def targetSub (inSubsFw : List (List Char)) (i : ℕ) : List Char :=
  inSubsFw.getD i []

/-- One iteration of `einsum.backward` for a differentiable input `i`:
either the dispatched contraction — substituted subscripts, target
subscript, and the operand list with `grad` in place of operand `i` —
or `NotImplementedError`.  The guard compares
`len(set(out_sub) ∩ set(in_subs))` with `len(out_sub)`. -/
def backwardStep {α : Type} (inSubsFw : List (List Char)) (outSubFw : List Char)
    (operands : List α) (grad : α) (i : ℕ) :
    Except String (List (List Char) × List Char × List α) :=
  let inSubs := joinedSubs inSubsFw outSubFw i
  let outSub := targetSub inSubsFw i
  let diagInputs := (List.range operands.length).map
    (fun j => if j = i then grad else operands.getD j grad)
  let outSet := outSub.dedup
  let ioSet := outSet.filter (fun c => decide (c ∈ inSubs))
  if ioSet.length = outSub.length then
    .ok (substitutedSubs inSubsFw outSubFw i, outSub, diagInputs)
  else
    .error "NotImplementedError"

end einsum

/- ===================== loupe.tensordot._tensordot validation ===================== -/

namespace tensordot

/-- The validation block of `loupe.tensordot._tensordot` (run before
`np.tensordot` is invoked): checks the two contraction axis lists have
equal length, that each operand's rank covers the contraction count,
and that sizes match along every contracted axis pair; raises
`ValueError` with the source's message on the first violation. -/
def validate (aShape bShape : Shape) (aAxes bAxes : List ℕ) : Except String Unit :=
  let aColNdim := aAxes.length
  let bRowNdim := bAxes.length
  if aColNdim ≠ bRowNdim then
    .error "axes count mismatch"
  else if aShape.length < aColNdim ∨ bShape.length < bRowNdim then
    .error ("dimension of input arrays must be greater equal to dot-axes count ("
            ++ toString aColNdim ++ ")")
  else if (List.zip aAxes bAxes).all
      (fun p => aShape.getD p.1 0 == bShape.getD p.2 0) then
    .ok ()
  else
    .error "shape mismatch"

/-- `_tensordot` proper: validation first, the `np.tensordot`
contraction (represented by its axis arguments) only afterwards. -/
def run (aShape bShape : Shape) (aAxes bAxes : List ℕ) :
    Except String (List ℕ × List ℕ) :=
  match validate aShape bShape aAxes bAxes with
  | .error e => .error e
  | .ok _ => .ok (aAxes, bAxes)

end tensordot

/- ===================== loupe.cost.sserror ===================== -/

/-- Sum of a rational-valued 2-d buffer over both axes. -/
def sum2 (m n : ℕ) (h : ℕ → ℕ → ℚ) : ℚ :=
  ∑ i ∈ Finset.range m, ∑ j ∈ Finset.range n, h i j

namespace sserror

/-- `sserror._G(data, mask=None)` for 2-d data: subtract the mean over
the last two axes. -/
def G (m n : ℕ) (data : ℕ → ℕ → ℚ) : ℕ → ℕ → ℚ :=
  fun i j => data i j - sum2 m n data / (m * n)

/-- `sserror._fit_gain(_f, _g, mask=None)` for 2-d buffers under
`np.seterr(all='raise')` (set at module import): a zero denominator sum
makes the division raise `FloatingPointError`, which the handler turns
into `ZeroDivisionError('g must be nonzero')` when `_g` is identically
zero and re-raises otherwise. -/
def fitGain (m n : ℕ) (fc gc : ℕ → ℕ → ℚ) : Except String ℚ :=
  let numer := sum2 m n (fun i j => fc i j * gc i j)
  let denom := sum2 m n (fun i j => gc i j ^ 2)
  if denom = 0 then
    if (List.range m).all (fun i => (List.range n).all (fun j => gc i j == 0)) then
      .error "ZeroDivisionError: g must be nonzero"
    else
      .error "FloatingPointError"
  else
    .ok (numer / denom)

/-- `sserror.forward` for 2-d inputs with `gain_bias_invariant=True` and
`mask=None` (so `self._K = 1`): center the model, fit the gain,
form the residual `alpha * _g - _f` and return the normalized sum
squared error.  A zero `sum(f**2)` denominator would also raise under
`np.seterr(all='raise')`. -/
def forward (m n : ℕ) (f g : ℕ → ℕ → ℚ) : Except String ℚ :=
  let fc := G m n f
  let gc := G m n g
  match fitGain m n fc gc with
  | .error e => .error e
  | .ok alpha =>
    let resid := fun i j => gc i j * alpha - fc i j
    let denomF := sum2 m n (fun i j => f i j ^ 2)
    if denomF = 0 then .error "FloatingPointError"
    else .ok (1 / 1 * (sum2 m n (fun i j => resid i j ^ 2) / denomF))

end sserror

/- ===================== loupe.array.flatten / mask handling ===================== -/

/-- A NumPy ndarray in flat row-major form, with rational entries. -/
structure NpData where
  shape : Shape
  flat : List ℚ
deriving DecidableEq, Repr

/-- A NumPy boolean ndarray in flat row-major form. -/
structure NpMask where
  shape : Shape
  flat : List Bool
deriving DecidableEq, Repr

/-- `np.asarray(mask, dtype=bool)` from `array.__init__`: `None` becomes
a 0-dimensional array holding `False` (it is *not* kept as `None`). -/
def initMask (mask : Option NpMask) : NpMask :=
  match mask with
  | none => ⟨[], [false]⟩
  | some m => m

/-- The `data`/`mask` state of a constructed `loupe.array`. -/
structure MaskedArray where
  data : NpData
  mask : NpMask
deriving DecidableEq, Repr

/-- `loupe.array.__init__(object, mask=...)`, restricted to the fields
`_data` and `mask`. -/
def arrayInit (data : NpData) (mask : Option NpMask) : MaskedArray :=
  ⟨data, initMask mask⟩

/-- NumPy boolean indexing `data[~mask]` for the two cases the source
can produce: a 0-d mask (from `mask=None`), where the index `~mask` is
the scalar `True`/`False` and prepends an axis of size 1 or 0, and a
mask of the data's full shape, where the result is the 1-d list of
entries (row-major) at which `~mask` is `True`. -/
def boolIndexNot (data : NpData) (mask : NpMask) : NpData :=
  if mask.shape = [] then
    if mask.flat.getD 0 true = false then ⟨1 :: data.shape, data.flat⟩
    else ⟨0 :: data.shape, []⟩
  else
    let kept := (data.flat.zip mask.flat).filterMap
      (fun p => if p.2 then none else some p.1)
    ⟨[kept.length], kept⟩

/-- `loupe.array.flatten(apply_mask)`: the source guard is
`self.mask is not None and apply_mask`, and after `__init__` the mask
attribute is always an ndarray (never `None`), so the guard reduces to
`apply_mask`; the masked branch is `self._data[~self.mask]`, the other
branch `self._data.flatten()`. -/
def flatten (a : MaskedArray) (applyMask : Bool) : NpData :=
  if applyMask then boolIndexNot a.data a.mask
  else ⟨[a.data.flat.length], a.data.flat⟩


/- ===================== General list lemmas ===================== -/

theorem list_map_getD_range (l : List ℕ) (d : ℕ) :
    (List.range l.length).map (fun n => l.getD n d) = l := by
  apply List.ext_getElem?
  intro n
  rw [List.getElem?_map]
  rcases lt_or_ge n l.length with h | h
  · rw [List.getElem?_range h]
    simp [List.getD_eq_getElem?_getD, List.getElem?_eq_getElem h]
  · rw [List.getElem?_eq_none (by simpa using h), List.getElem?_eq_none h]
    rfl

theorem list_set_getD_self (l : List ℕ) (n v : ℕ) (h : l.getD n 0 = v)
    (hn : n < l.length) : l.set n v = l := by
  apply List.ext_getElem?
  intro m
  rw [List.getElem?_set]
  by_cases hm : n = m
  · subst hm
    rw [if_pos rfl, if_pos hn, ← h]
    simp [List.getD_eq_getElem?_getD, List.getElem?_eq_getElem hn]
  · rw [if_neg hm]

theorem list_getD_lt_length (l : List ℕ) (n : ℕ) (h : l.getD n 0 ≠ 0) :
    n < l.length := by
  by_contra hc
  push_neg at hc
  rw [List.getD_eq_getElem?_getD, List.getElem?_eq_none hc] at h
  exact h rfl

theorem bIdx_eq_self {s : Shape} {idx : Idx} (h : validIdx s idx) :
    bIdx s idx = idx := by
  obtain ⟨hlen, hbound⟩ := h
  unfold bIdx
  rw [hlen, Nat.sub_self, List.drop_zero]
  apply List.ext_getElem?
  intro n
  rw [List.getElem?_zipWith]
  rcases lt_or_ge n s.length with hn | hn
  · have hni : n < idx.length := by omega
    rw [List.getElem?_eq_getElem hn, List.getElem?_eq_getElem hni]
    by_cases h1 : s[n] = 1
    · have hb := hbound n hn
      simp only [List.getD_eq_getElem?_getD, List.getElem?_eq_getElem hn,
        List.getElem?_eq_getElem hni, Option.getD_some, h1] at hb
      have hz : idx[n] = 0 := by omega
      simp [h1, hz]
    · simp [h1]
  · rw [List.getElem?_eq_none hn, List.getElem?_eq_none (by omega)]

theorem alignDim_lt (s : Shape) (n : ℕ) (hn : n < s.length) :
    alignDim s s.length n = s.getD n 1 := by
  unfold alignDim
  rw [if_pos (by omega)]
  congr 1
  omega

theorem npBroadcastShape_self (s : Shape) : npBroadcastShape s s = s := by
  unfold npBroadcastShape
  simp only [max_self]
  have h : ∀ n ∈ List.range s.length,
      (fun n =>
        let a := alignDim s s.length n
        let b := alignDim s s.length n
        if a = 1 then b else a) n = (fun n => s.getD n 1) n := by
    intro n hn
    rw [List.mem_range] at hn
    simp only [alignDim_lt s n hn, ite_self]
  rw [List.map_congr_left h, list_map_getD_range]

theorem iterate_sumAxis0_shape (k : ℕ) (g : Arr) :
    (sumAxis0^[k] g).shape = g.shape.drop k := by
  induction k generalizing g with
  | zero => simp
  | succ k ih =>
    rw [Function.iterate_succ_apply, ih]
    show (sumAxis0 g).shape.drop k = _
    have h : (sumAxis0 g).shape = g.shape.drop 1 := by
      simp [sumAxis0, ← List.drop_one]
    rw [h, List.drop_drop, Nat.add_comm]

theorem foldl_keep_shape (s : Shape) (ns : List ℕ) (g : Arr) :
    (ns.foldl (fun g n => if s.getD n 0 = 1 then sumAxisKeepdims n g else g) g).shape
      = ns.foldl (fun sh n => if s.getD n 0 = 1 then sh.set n 1 else sh) g.shape := by
  induction ns generalizing g with
  | nil => rfl
  | cons n ns ih =>
    simp only [List.foldl_cons]
    rw [ih]
    split_ifs with h
    · rfl
    · rfl

theorem foldl_shape_length (s sh : Shape) (ns : List ℕ) :
    (ns.foldl (fun sh n => if s.getD n 0 = 1 then sh.set n 1 else sh) sh).length
      = sh.length := by
  induction ns generalizing sh with
  | nil => rfl
  | cons n ns ih =>
    simp only [List.foldl_cons]
    rw [ih]
    split_ifs with h
    · simp
    · rfl

theorem foldl_set_range_getElem? (s : Shape) (sh : Shape) (K m : ℕ) :
    ((List.range K).foldl (fun sh n => if s.getD n 0 = 1 then sh.set n 1 else sh) sh)[m]?
      = if m < K ∧ s.getD m 0 = 1 ∧ m < sh.length then some 1 else sh[m]? := by
  induction K with
  | zero => simp
  | succ K ih =>
    rw [List.range_succ, List.foldl_append]
    simp only [List.foldl_cons, List.foldl_nil]
    by_cases hK : s.getD K 0 = 1
    · rw [if_pos hK, List.getElem?_set, foldl_shape_length, ih]
      by_cases hm : K = m
      · subst hm
        by_cases hlen : K < sh.length
        · rw [if_pos rfl, if_pos hlen, if_pos ⟨by omega, hK, hlen⟩]
        · rw [if_pos rfl, if_neg hlen, if_neg (fun hc => hlen hc.2.2),
            List.getElem?_eq_none (by omega)]
      · rw [if_neg hm]
        by_cases h1 : m < K ∧ s.getD m 0 = 1 ∧ m < sh.length
        · rw [if_pos h1, if_pos ⟨by omega, h1.2⟩]
        · have hne : ¬(m < K + 1 ∧ s.getD m 0 = 1 ∧ m < sh.length) := by
            intro hc
            rcases Nat.lt_succ_iff_lt_or_eq.mp hc.1 with h | h
            · exact h1 ⟨h, hc.2⟩
            · exact hm h.symm
          rw [if_neg h1, if_neg hne]
    · rw [if_neg hK, ih]
      by_cases h1 : m < K ∧ s.getD m 0 = 1 ∧ m < sh.length
      · rw [if_pos h1, if_pos ⟨by omega, h1.2⟩]
      · have hne : ¬(m < K + 1 ∧ s.getD m 0 = 1 ∧ m < sh.length) := by
          intro hc
          rcases Nat.lt_succ_iff_lt_or_eq.mp hc.1 with h | h
          · exact h1 ⟨h, hc.2⟩
          · exact hK (h ▸ hc.2.1)
        rw [if_neg h1, if_neg hne]

theorem npBroadcastShape_length (s t : Shape) :
    (npBroadcastShape s t).length = max s.length t.length := by
  simp [npBroadcastShape]

theorem alignDim_of_lt (s : Shape) (K n : ℕ) (hKs : s.length ≤ K) (hn : n < s.length) :
    alignDim s K (n + (K - s.length)) = s.getD n 1 := by
  unfold alignDim
  rw [if_pos (by omega)]
  congr 1
  omega

theorem npBroadcastShape_getElem_shifted (s t : Shape) (n : ℕ) (hn : n < s.length)
    (hmax : s.length ≤ max s.length t.length) :
    (npBroadcastShape s t)[n + (max s.length t.length - s.length)]?
      = some (if s.getD n 1 = 1 then alignDim t (max s.length t.length)
                (n + (max s.length t.length - s.length))
              else s.getD n 1) := by
  unfold npBroadcastShape
  rw [List.getElem?_map, List.getElem?_range (by omega)]
  rw [Option.map_some']
  rw [alignDim_of_lt s _ n hmax hn]

/-- Core shape fact about `_broadcast_grad`: if the gradient's rank covers
the operand's and every aligned gradient dimension either sits over a
size-1 operand dimension or equals the operand's, the reduced gradient's
shape is exactly the operand's shape. -/
theorem broadcastGrad_shape_core (g : Arr) (s : Shape)
    (hle : s.length ≤ g.shape.length)
    (hcomp : ∀ n, n < s.length →
      s.getD n 0 = 1 ∨ g.shape[n + (g.shape.length - s.length)]? = some (s.getD n 0)) :
    (broadcastGrad g s).shape = s := by
  unfold broadcastGrad
  rw [foldl_keep_shape, iterate_sumAxis0_shape]
  apply List.ext_getElem?
  intro m
  rw [foldl_set_range_getElem?]
  have hdlen : (g.shape.drop (g.shape.length - s.length)).length = s.length := by
    rw [List.length_drop]
    omega
  by_cases hm : m < s.length
  · have hget : (g.shape.drop (g.shape.length - s.length))[m]?
        = g.shape[(g.shape.length - s.length) + m]? := List.getElem?_drop _ _ _
    by_cases h1 : s.getD m 0 = 1
    · rw [if_pos ⟨hm, h1, by omega⟩]
      rw [List.getElem?_eq_getElem hm]
      rw [List.getD_eq_getElem?_getD, List.getElem?_eq_getElem hm] at h1
      simp only [Option.getD_some] at h1
      rw [h1]
    · rw [if_neg (fun hc => h1 hc.2.1)]
      rcases hcomp m hm with h | h
      · exact absurd h h1
      · rw [hget, Nat.add_comm, h, List.getElem?_eq_getElem hm]
        rw [List.getD_eq_getElem?_getD, List.getElem?_eq_getElem hm]
        rfl
  · rw [if_neg (fun hc => hm hc.1), List.getElem?_eq_none (by omega),
      List.getElem?_eq_none (by omega)]

theorem list_getD_default_irrel (l : List ℕ) (n : ℕ) (hn : n < l.length) (d d' : ℕ) :
    l.getD n d = l.getD n d' := by
  rw [List.getD_eq_getElem?_getD, List.getD_eq_getElem?_getD, List.getElem?_eq_getElem hn]
  rfl

theorem npBroadcastShape_getElem_shifted_right (s t : Shape) (n : ℕ) (hn : n < t.length)
    (hmax : t.length ≤ max s.length t.length) :
    (npBroadcastShape s t)[n + (max s.length t.length - t.length)]?
      = some (if alignDim s (max s.length t.length) (n + (max s.length t.length - t.length)) = 1
              then t.getD n 1
              else alignDim s (max s.length t.length) (n + (max s.length t.length - t.length))) := by
  unfold npBroadcastShape
  rw [List.getElem?_map, List.getElem?_range (by omega)]
  rw [Option.map_some']
  rw [alignDim_of_lt t _ n hmax hn]

/-- `_broadcast_grad` reduces a gradient of the broadcast shape of `s`
and `t` exactly back to shape `s` (the left operand's shape). -/
theorem broadcastGrad_shape_left (s t : Shape) (g : Arr) (hc : broadcastCompat s t)
    (hg : g.shape = npBroadcastShape s t) : (broadcastGrad g s).shape = s := by
  have hKlen : g.shape.length = max s.length t.length := by
    rw [hg, npBroadcastShape_length]
  apply broadcastGrad_shape_core
  · omega
  · intro n hn
    by_cases h1 : s.getD n 0 = 1
    · exact Or.inl h1
    · right
      rw [hg, npBroadcastShape_length, npBroadcastShape_getElem_shifted s t n hn (by omega)]
      rw [list_getD_default_irrel s n hn 1 0]
      rw [if_neg h1]

/-- `_broadcast_grad` reduces a gradient of the broadcast shape of `s`
and `t` exactly back to shape `t` (the right operand's shape). -/
theorem broadcastGrad_shape_right (s t : Shape) (g : Arr) (hc : broadcastCompat s t)
    (hg : g.shape = npBroadcastShape s t) : (broadcastGrad g t).shape = t := by
  have hKlen : g.shape.length = max s.length t.length := by
    rw [hg, npBroadcastShape_length]
  apply broadcastGrad_shape_core
  · omega
  · intro n hn
    by_cases h1 : t.getD n 0 = 1
    · exact Or.inl h1
    · right
      rw [hg, npBroadcastShape_length, npBroadcastShape_getElem_shifted_right s t n hn (by omega)]
      rw [list_getD_default_irrel t n hn 0 1]
      have hm : n + (max s.length t.length - t.length) < max s.length t.length := by omega
      rcases hc _ hm with ha | hb | hab
      · rw [if_pos ha]
      · rw [alignDim_of_lt t _ n (by omega) hn, list_getD_default_irrel t n hn 1 0] at hb
        exact absurd hb h1
      · rw [alignDim_of_lt t _ n (by omega) hn] at hab
        by_cases ha : alignDim s (max s.length t.length) (n + (max s.length t.length - t.length)) = 1
        · rw [if_pos ha]
        · rw [if_neg ha, hab]

theorem foldl_keep_invariant (s : Shape) (g0 : Arr) (ns : List ℕ) :
    ∀ g : Arr, g.shape = s → (∀ idx, validIdx s idx → g.val idx = g0.val idx) →
      (ns.foldl (fun g n => if s.getD n 0 = 1 then sumAxisKeepdims n g else g) g).shape = s
      ∧ ∀ idx, validIdx s idx →
          (ns.foldl (fun g n => if s.getD n 0 = 1 then sumAxisKeepdims n g else g) g).val idx
            = g0.val idx := by
  induction ns with
  | nil => intro g hsh hval; exact ⟨hsh, hval⟩
  | cons n ns ih =>
    intro g hsh hval
    simp only [List.foldl_cons]
    by_cases hn : s.getD n 0 = 1
    · rw [if_pos hn]
      have hlt : n < s.length := list_getD_lt_length s n (by omega)
      apply ih
      · show g.shape.set n 1 = s
        rw [hsh]
        exact list_set_getD_self s n 1 hn hlt
      · intro idx hidx
        show (∑ i ∈ Finset.range (g.shape.getD n 0), g.val (idx.set n i)) = g0.val idx
        rw [hsh, hn, Finset.sum_range_one]
        have hidx0 : idx.getD n 0 = 0 := by
          have hb := hidx.2 n hlt
          rw [list_getD_default_irrel s n hlt 1 0, hn] at hb
          omega
        rw [list_set_getD_self idx n 0 hidx0 (by rw [hidx.1]; exact hlt)]
        exact hval idx hidx
    · rw [if_neg hn]
      exact ih g hsh hval

/-- `_broadcast_grad` is the identity (on the valid index range) when the
gradient already has the operand's shape. -/
theorem broadcastGrad_id (g : Arr) (s : Shape) (hs : g.shape = s) (idx : Idx)
    (hidx : validIdx s idx) : (broadcastGrad g s).val idx = g.val idx
      ∧ (broadcastGrad g s).shape = s := by
  unfold broadcastGrad
  have hz : g.shape.length - s.length = 0 := by rw [hs]; omega
  rw [hz]
  have h := foldl_keep_invariant s g (List.range s.length) g hs (fun _ _ => rfl)
  exact ⟨h.2 idx hidx, h.1⟩

/- ===================== Claim theorems ===================== -/

/-- C1: for an array leaf with `requires_grad=True`, `backward(grad)`
accumulates into `grad` by addition — two successive contributions add on
top of the existing buffer rather than overwriting it — and when the
data dtype is real-typed (float32/float64) only the real component of
the (possibly complex) incoming gradient is added. -/
theorem array_backward_accumulates (a : LoupeArray) (g1 g2 : Arr)
    (h : a.requiresGrad = true) (idx : Idx) :
    (a.dtype.isFloatPair = true →
      (array.backward (array.backward a g1) g2).grad.val idx
        = a.grad.val idx + Cx.ofRat (g1.val idx).re + Cx.ofRat (g2.val idx).re)
    ∧ (a.dtype.isFloatPair = false →
      (array.backward (array.backward a g1) g2).grad.val idx
        = a.grad.val idx + g1.val idx + g2.val idx) := by
  unfold array.backward
  constructor <;> intro hd <;> simp [h, hd]

def witA : LoupeArray := ⟨.float64, true, ⟨[1], fun _ => 0⟩⟩

def witG1 : Arr := ⟨[1], fun _ => ⟨1, 5⟩⟩

def witG2 : Arr := ⟨[1], fun _ => ⟨2, 7⟩⟩

theorem array_backward_accumulates_witness :
    witA.requiresGrad = true ∧ witA.dtype.isFloatPair = true ∧
    (array.backward (array.backward witA witG1) witG2).grad.val [0] = ⟨3, 0⟩ := by
  refine ⟨rfl, rfl, ?_⟩
  have h := (array_backward_accumulates witA witG1 witG2 rfl [0]).1 rfl
  rw [h]
  decide

/-- C2: a leaf with `requires_grad=False` is never written by backward:
calling its `backward` directly is a no-op on the whole leaf (the grad
buffer, zero from construction, stays as it is), and invoking `backward`
on an `add` node consuming the leaf leaves it untouched as well. -/
theorem array_backward_no_grad (l r : LoupeArray) (ls rs : Shape) (g grad : Arr)
    (h : l.requiresGrad = false) :
    array.backward l g = l
    ∧ (add.backwardLeaves l r ls rs grad).1 = l := by
  unfold array.backward add.backwardLeaves
  simp [h]

def witL0 : LoupeArray := ⟨.float64, false, ⟨[1], fun _ => 0⟩⟩

def witR0 : LoupeArray := ⟨.float64, true, ⟨[1], fun _ => 0⟩⟩

theorem array_backward_no_grad_witness :
    witL0.requiresGrad = false ∧
    array.backward witL0 witG1 = witL0 ∧
    (add.backwardLeaves witL0 witR0 [1] [1] witG1).1.grad.val [0] = 0 := by
  have h := array_backward_no_grad witL0 witR0 [1] [1] witG1 witG1 rfl
  refine ⟨rfl, h.1, ?_⟩
  rw [h.2]
  rfl

/-- C3: for broadcast-compatible operand shapes, `add.forward` is the
NumPy broadcast elementwise sum of the two data arrays, and
`add.backward` routes `_broadcast_grad(grad, shape)` to each
`requires_grad` input — the incoming gradient summed over the added
leading dimensions and the size-1 broadcast dimensions — so each
delivered gradient has exactly that input's original shape. -/
theorem add_broadcast_forward_backward (a b grad : Arr) (l r : LoupeArray)
    (hc : broadcastCompat a.shape b.shape)
    (hg : grad.shape = npBroadcastShape a.shape b.shape)
    (hl : l.requiresGrad = true) (hr : r.requiresGrad = true) :
    (add.forward a b).shape = npBroadcastShape a.shape b.shape
    ∧ (∀ idx, (add.forward a b).val idx
        = a.val (bIdx a.shape idx) + b.val (bIdx b.shape idx))
    ∧ (add.backwardLeaves l r a.shape b.shape grad).1
        = array.backward l (broadcastGrad grad a.shape)
    ∧ (add.backwardLeaves l r a.shape b.shape grad).2
        = array.backward r (broadcastGrad grad b.shape)
    ∧ (broadcastGrad grad a.shape).shape = a.shape
    ∧ (broadcastGrad grad b.shape).shape = b.shape := by
  refine ⟨rfl, fun idx => rfl, ?_, ?_, ?_, ?_⟩
  · simp [add.backwardLeaves, hl]
  · simp [add.backwardLeaves, hr]
  · exact broadcastGrad_shape_left a.shape b.shape grad hc hg
  · exact broadcastGrad_shape_right a.shape b.shape grad hc hg

def witA3 : Arr := ⟨[2,1], fun _ => ⟨4,0⟩⟩

def witB3 : Arr := ⟨[3], fun _ => ⟨5,0⟩⟩

def witGrad23 : Arr := ⟨[2,3], fun _ => 1⟩

def witLA : LoupeArray := ⟨.float64, true, ⟨[2,1], fun _ => 0⟩⟩

def witLB : LoupeArray := ⟨.float64, true, ⟨[3], fun _ => 0⟩⟩

theorem add_broadcast_forward_backward_witness :
    broadcastCompat [2,1] [3]
    ∧ (add.forward witA3 witB3).shape = [2,3]
    ∧ (add.forward witA3 witB3).val [1,2] = ⟨9,0⟩
    ∧ (broadcastGrad witGrad23 [2,1]).shape = [2,1]
    ∧ (broadcastGrad witGrad23 [3]).shape = [3] := by
  have h := add_broadcast_forward_backward witA3 witB3 witGrad23 witLA witLB
    (by decide) (by decide) rfl rfl
  refine ⟨by decide, ?_, ?_, h.2.2.2.2.1, h.2.2.2.2.2⟩
  · rw [h.1]; decide
  · rw [h.2.1 [1,2]]; decide

/-- C4: `multiply.backward` routes `conj(right) * grad` (broadcast-reduced
to the left shape) to the left input and `conj(left) * grad`
(broadcast-reduced to the right shape) to the right input; when both
operands and the gradient share one shape and the incoming gradient is
identically one, the left input receives `conj(right)` and the right
input `conj(left)`, elementwise. -/
theorem multiply_backward_conjugate (a b grad : Arr) (l r : LoupeArray) (s : Shape)
    (ha : a.shape = s) (hb : b.shape = s) (hg : grad.shape = s)
    (hl : l.requiresGrad = true) (hr : r.requiresGrad = true)
    (hunit : ∀ j, validIdx s j → grad.val j = 1)
    (idx : Idx) (hidx : validIdx s idx) :
    (multiply.backwardLeaves l r a b grad).1
        = array.backward l (multiply.leftGrad b grad a.shape)
    ∧ (multiply.backwardLeaves l r a b grad).2
        = array.backward r (multiply.rightGrad a grad b.shape)
    ∧ (multiply.leftGrad b grad a.shape).shape = a.shape
    ∧ (multiply.rightGrad a grad b.shape).shape = b.shape
    ∧ (multiply.leftGrad b grad a.shape).val idx = (b.val idx).conj
    ∧ (multiply.rightGrad a grad b.shape).val idx = (a.val idx).conj := by
  have hbl : (npMul (conjArr b) grad).shape = s := by
    show npBroadcastShape b.shape grad.shape = s
    rw [hb, hg, npBroadcastShape_self]
  have hbr : (npMul (conjArr a) grad).shape = s := by
    show npBroadcastShape a.shape grad.shape = s
    rw [ha, hg, npBroadcastShape_self]
  have hvl := broadcastGrad_id (npMul (conjArr b) grad) s hbl idx hidx
  have hvr := broadcastGrad_id (npMul (conjArr a) grad) s hbr idx hidx
  refine ⟨by simp [multiply.backwardLeaves, hl], by simp [multiply.backwardLeaves, hr],
    ?_, ?_, ?_, ?_⟩
  · show (broadcastGrad (npMul (conjArr b) grad) a.shape).shape = a.shape
    rw [ha]; exact hvl.2
  · show (broadcastGrad (npMul (conjArr a) grad) b.shape).shape = b.shape
    rw [hb]; exact hvr.2
  · show (broadcastGrad (npMul (conjArr b) grad) a.shape).val idx = (b.val idx).conj
    rw [ha, hvl.1]
    show (conjArr b).val (bIdx b.shape idx) * grad.val (bIdx grad.shape idx) = _
    rw [hb, hg, bIdx_eq_self hidx, hunit idx hidx, mul_one]
    rfl
  · show (broadcastGrad (npMul (conjArr a) grad) b.shape).val idx = (a.val idx).conj
    rw [hb, hvr.1]
    show (conjArr a).val (bIdx a.shape idx) * grad.val (bIdx grad.shape idx) = _
    rw [ha, hg, bIdx_eq_self hidx, hunit idx hidx, mul_one]
    rfl

def witMA : Arr := ⟨[2], fun _ => ⟨1,2⟩⟩

def witMB : Arr := ⟨[2], fun _ => ⟨3,4⟩⟩

def witMG : Arr := ⟨[2], fun _ => 1⟩

def witML : LoupeArray := ⟨.complex128, true, ⟨[2], fun _ => 0⟩⟩

def witMR : LoupeArray := ⟨.complex128, true, ⟨[2], fun _ => 0⟩⟩

theorem multiply_backward_conjugate_witness :
    validIdx [2] [1]
    ∧ (multiply.leftGrad witMB witMG witMA.shape).val [1] = ⟨3,-4⟩
    ∧ (multiply.rightGrad witMA witMG witMB.shape).val [1] = ⟨1,-2⟩
    ∧ (multiply.leftGrad witMB witMG witMA.shape).shape = [2] := by
  have h := multiply_backward_conjugate witMA witMB witMG witML witMR [2]
    rfl rfl rfl rfl rfl (fun j _ => rfl) [1] (by decide)
  refine ⟨by decide, ?_, ?_, h.2.2.1⟩
  · rw [h.2.2.2.2.1]; decide
  · rw [h.2.2.2.2.2]; decide

/-- C5: `power.backward` computes `exp * base^(exp-1) * grad` and
dispatches it only to the base input (through the base leaf's own
`backward`); the exponent — whether a constant or a node standing in the
graph — receives no gradient contribution at all, so an exponent leaf is
returned untouched. -/
theorem power_backward_base_only (base expLeaf : LoupeArray) (input : Arr) (e : ℤ)
    (grad : Arr) (s : Shape) (hi : input.shape = s) (hg : grad.shape = s)
    (hb : base.requiresGrad = true) (hd : base.dtype.isFloatPair = false)
    (idx : Idx) (hidx : validIdx s idx) :
    (power.backwardLeaves base expLeaf input e grad).2 = expLeaf
    ∧ (power.backwardLeaves base expLeaf input e grad).1
        = array.backward base (power.baseGrad input e grad)
    ∧ (power.backwardLeaves base expLeaf input e grad).1.grad.val idx
        = base.grad.val idx
          + Cx.ofRat (e : ℚ) * cpow (input.val idx) (e - 1) * grad.val idx := by
  refine ⟨rfl, rfl, ?_⟩
  show (array.backward base (power.baseGrad input e grad)).grad.val idx = _
  unfold array.backward
  rw [if_neg (by rw [hb]; simp), if_neg (by rw [hd]; simp)]
  show base.grad.val idx + (power.baseGrad input e grad).val idx = _
  congr 1
  show (Cx.ofRat (e : ℚ) * cpow (input.val (bIdx input.shape idx)) (e - 1))
      * grad.val (bIdx grad.shape idx) = _
  rw [hi, hg, bIdx_eq_self hidx]

def witPB : LoupeArray := ⟨.complex128, true, ⟨[1], fun _ => 0⟩⟩

def witPE : LoupeArray := ⟨.float64, true, ⟨[1], fun _ => 0⟩⟩

def witPI : Arr := ⟨[1], fun _ => ⟨2,0⟩⟩

def witPG : Arr := ⟨[1], fun _ => 1⟩

theorem power_backward_base_only_witness :
    validIdx [1] [0]
    ∧ (power.backwardLeaves witPB witPE witPI 3 witPG).2 = witPE
    ∧ (power.backwardLeaves witPB witPE witPI 3 witPG).2.grad.val [0] = 0
    ∧ (power.backwardLeaves witPB witPE witPI 3 witPG).1.grad.val [0] = ⟨12,0⟩ := by
  have h := power_backward_base_only witPB witPE witPI 3 witPG [1]
    rfl rfl rfl rfl [0] (by decide)
  refine ⟨by decide, h.1, ?_, ?_⟩
  · rw [h.1]; rfl
  · rw [h.2.2]; decide

def cW : Mtx := ⟨1, 1, fun _ _ => 1⟩

def cX : Mtx := ⟨1, 1, fun _ _ => ⟨2,0⟩⟩

def cG : Mtx := ⟨1, 1, fun _ _ => 1⟩

/-- C6 counterexample: with 1×1 kernels `cW`, input `cX` and
`alpha = (1/4, 1/4)` (so the normalization coefficient is
`sqrt(1/4)*sqrt(1/4) = 1/4`), the value cached by `forward` differs from
the clean (pre-scaling) matrix-triple-product, and `backward` on a unit
gradient differs from the conjugate-kernel product of the gradient
divided by the normalization coefficient: the source multiplies. -/
theorem dft2_claim_counterexample :
    (dft2.forward cW cW cX true (1/4)).cache.val 0 0 ≠ ((cW.dot cX).dot cW).val 0 0
    ∧ (dft2.backward cW.conj cW.conj (1/4) cG).val 0 0
        ≠ ((((cW.conj).T).dot (Mtx.scale (1/(1/4)) cG)).dot ((cW.conj).T)).val 0 0 := by
  constructor
  · decide
  · decide

/-- C6 (amended): with `unitary=True` the forward output equals the
clean matrix-triple-product scaled by
`sqrt(|alpha_row|) * sqrt(|alpha_col|)`; the clean result array is handed
to the cache before the scaling, but the scaling is executed in place on
that same array, so after `forward` the cache holds the scaled result
(`backward` never reads it); `backward` recovers the clean incoming
gradient by multiplying the incoming gradient by that same normalization
coefficient before applying the conjugate kernels. -/
theorem dft2_unitary_normalization (Wr Wc x grad : Mtx) (ar ac rr rc : ℚ)
    (hrr : 0 ≤ rr) (hr2 : rr * rr = |ar|) (hrc : 0 ≤ rc) (hc2 : rc * rc = |ac|) :
    (∀ i j, (dft2.forward Wr Wc x true (rr * rc)).output.val i j
        = Cx.ofRat (rr * rc) * ((Wr.dot x).dot Wc).val i j)
    ∧ (dft2.forward Wr Wc x true (rr * rc)).cache
        = (dft2.forward Wr Wc x true (rr * rc)).output
    ∧ dft2.backward (Wr.conj) (Wc.conj) (rr * rc) grad
        = ((((Wr.conj).T).dot (Mtx.scale (rr * rc) grad)).dot ((Wc.conj).T)) :=
  ⟨fun _ _ => rfl, rfl, rfl⟩

theorem dft2_unitary_normalization_witness :
    (0 ≤ (1/2 : ℚ) ∧ (1/2 : ℚ) * (1/2) = |(1/4 : ℚ)|)
    ∧ (dft2.forward cW cW cX true ((1/2) * (1/2))).output.val 0 0 = ⟨1/2, 0⟩
    ∧ (dft2.forward cW cW cX true ((1/2) * (1/2))).cache
        = (dft2.forward cW cW cX true ((1/2) * (1/2))).output := by
  have habs : |(1/4 : ℚ)| = 1/4 := abs_of_nonneg (by norm_num)
  have h := dft2_unitary_normalization cW cW cX cG (1/4) (1/4) (1/2) (1/2)
    (by norm_num) (by rw [habs]; norm_num) (by norm_num) (by rw [habs]; norm_num)
  refine ⟨⟨by norm_num, by rw [habs]; norm_num⟩, ?_, h.2.1⟩
  rw [h.1 0 0]
  decide

/-- C7 counterexample: for the one-operand contraction `'aa->a'`
(diagonal extraction), backward for input 0 has target subscript `"aa"`
whose label set is fully contained in the substituted input subscripts
`"a"` — yet the computation fails with `NotImplementedError`, because
the source compares the intersection's cardinality against the length of
the target subscript counted with multiplicity. -/
theorem einsum_diag_counterexample :
    einsum.backwardStep (α := ℕ) [['a','a']] ['a'] [0] 7 0
        = .error "NotImplementedError"
    ∧ ((einsum.targetSub [['a','a']] 0).all
        (fun c => decide (c ∈ einsum.joinedSubs [['a','a']] ['a'] 0))) = true := by
  constructor
  · decide
  · decide

theorem dedup_filter_length_iff {α : Type} [DecidableEq α] (l : List α) (p : α → Bool) :
    (l.dedup.filter p).length = l.length ↔ l.Nodup ∧ ∀ a ∈ l, p a = true := by
  constructor
  · intro h
    have h1 : (l.dedup.filter p).length ≤ l.dedup.length := List.length_filter_le _ _
    have h2 : l.dedup.length ≤ l.length := (List.dedup_sublist l).length_le
    have hd : l.dedup.length = l.length := by omega
    have hdl : l.dedup = l := (List.dedup_sublist l).eq_of_length hd
    have hf : l.dedup.filter p = l.dedup :=
      (List.filter_sublist _).eq_of_length (by omega)
    refine ⟨hdl ▸ l.nodup_dedup, ?_⟩
    intro a ha
    exact List.filter_eq_self.mp hf a (by rw [hdl]; exact ha)
  · rintro ⟨hnd, hp⟩
    rw [List.dedup_eq_self.mpr hnd, List.filter_eq_self.mpr hp]

/-- C7 (amended): `einsum.backward` for input `i` dispatches the
substituted contraction (with the incoming gradient standing at position
`i`) exactly when the target output subscript — the original label
string of operand `i` — has no repeated label and every one of its
labels occurs among the substituted input subscripts; otherwise (a label
missing, or a repeated label as in the diagonal case) it fails with
`NotImplementedError`. -/
theorem einsum_backward_guard {α : Type} (inSubsFw : List (List Char))
    (outSubFw : List Char) (operands : List α) (grad : α) (i : ℕ) :
    (einsum.backwardStep inSubsFw outSubFw operands grad i
        = .ok (einsum.substitutedSubs inSubsFw outSubFw i,
               einsum.targetSub inSubsFw i,
               (List.range operands.length).map
                 (fun j => if j = i then grad else operands.getD j grad))
      ↔ ((einsum.targetSub inSubsFw i).Nodup
          ∧ ∀ c ∈ einsum.targetSub inSubsFw i,
              c ∈ einsum.joinedSubs inSubsFw outSubFw i))
    ∧ (¬((einsum.targetSub inSubsFw i).Nodup
          ∧ ∀ c ∈ einsum.targetSub inSubsFw i,
              c ∈ einsum.joinedSubs inSubsFw outSubFw i)
        → einsum.backwardStep inSubsFw outSubFw operands grad i
            = .error "NotImplementedError") := by
  have hiff : (((einsum.targetSub inSubsFw i).dedup.filter
        (fun c => decide (c ∈ einsum.joinedSubs inSubsFw outSubFw i))).length
        = (einsum.targetSub inSubsFw i).length)
      ↔ ((einsum.targetSub inSubsFw i).Nodup
          ∧ ∀ c ∈ einsum.targetSub inSubsFw i,
              c ∈ einsum.joinedSubs inSubsFw outSubFw i) := by
    rw [dedup_filter_length_iff]
    constructor
    · rintro ⟨h1, h2⟩
      exact ⟨h1, fun c hc => of_decide_eq_true (h2 c hc)⟩
    · rintro ⟨h1, h2⟩
      exact ⟨h1, fun c hc => decide_eq_true (h2 c hc)⟩
  unfold einsum.backwardStep
  by_cases h : (((einsum.targetSub inSubsFw i).dedup.filter
      (fun c => decide (c ∈ einsum.joinedSubs inSubsFw outSubFw i))).length
      = (einsum.targetSub inSubsFw i).length)
  · rw [if_pos h]
    exact ⟨⟨fun _ => hiff.mp h, fun _ => rfl⟩, fun hc => absurd (hiff.mp h) hc⟩
  · rw [if_neg h]
    constructor
    · constructor
      · intro hc
        exact absurd hc (by simp)
      · intro hc
        exact absurd (hiff.mpr hc) h
    · intro _
      rfl

/-- C8 counterexample: contracting axis 0 of a shape-`[2]` operand with
axis 0 of a shape-`[3]` operand fails — as claimed — but the raised
message is the fixed text `shape mismatch`, which contains no digit and
in particular does not name the offending shapes `(2,)` and `(3,)`. -/
theorem tensordot_message_counterexample :
    tensordot.validate [2] [3] [0] [0] = .error "shape mismatch"
    ∧ "shape mismatch".toList.all (fun c => decide (¬ c.isDigit)) = true
    ∧ ('2' ∉ "shape mismatch".toList ∧ '3' ∉ "shape mismatch".toList) := by
  refine ⟨by decide, by decide, by decide, by decide⟩

/-- C8 (amended): `_tensordot` validates — before `np.tensordot` is
invoked — that the two contraction axis lists have equal length, that
each operand's rank is at least the contraction axis count, and that
operand sizes agree along every matched axis pair; each violation raises
`ValueError`, but the messages are fixed texts (`axes count mismatch`,
`shape mismatch`) or name only the axis count — they do not name the
offending shapes. -/
theorem tensordot_validation (aShape bShape : Shape) (aAxes bAxes : List ℕ) :
    (tensordot.validate aShape bShape aAxes bAxes = .ok () ↔
      (aAxes.length = bAxes.length ∧ aAxes.length ≤ aShape.length
        ∧ bAxes.length ≤ bShape.length
        ∧ ∀ p ∈ List.zip aAxes bAxes, aShape.getD p.1 0 = bShape.getD p.2 0))
    ∧ (aAxes.length ≠ bAxes.length →
        tensordot.validate aShape bShape aAxes bAxes = .error "axes count mismatch")
    ∧ (aAxes.length = bAxes.length →
        (aShape.length < aAxes.length ∨ bShape.length < bAxes.length) →
        tensordot.validate aShape bShape aAxes bAxes
          = .error ("dimension of input arrays must be greater equal to dot-axes count ("
              ++ toString aAxes.length ++ ")"))
    ∧ (aAxes.length = bAxes.length → aAxes.length ≤ aShape.length →
        bAxes.length ≤ bShape.length →
        (∃ p ∈ List.zip aAxes bAxes, aShape.getD p.1 0 ≠ bShape.getD p.2 0) →
        tensordot.validate aShape bShape aAxes bAxes = .error "shape mismatch")
    ∧ (tensordot.run aShape bShape aAxes bAxes
        = (tensordot.validate aShape bShape aAxes bAxes).map (fun _ => (aAxes, bAxes))) := by
  refine ⟨?_, ?_, ?_, ?_, ?_⟩
  · unfold tensordot.validate
    by_cases h1 : aAxes.length ≠ bAxes.length
    · rw [if_pos h1]
      constructor
      · intro hc
        exact absurd hc (by simp)
      · rintro ⟨hl, _, _, _⟩
        exact absurd hl h1
    · rw [if_neg h1]
      push_neg at h1
      by_cases h2 : aShape.length < aAxes.length ∨ bShape.length < bAxes.length
      · rw [if_pos h2]
        constructor
        · intro hc
          exact absurd hc (by simp)
        · rintro ⟨_, ha, hb, _⟩
          omega
      · rw [if_neg h2]
        push_neg at h2
        by_cases h3 : ((aAxes.zip bAxes).all
            fun p => List.getD aShape p.1 0 == List.getD bShape p.2 0) = true
        · rw [if_pos h3]
          constructor
          · intro _
            refine ⟨h1, h2.1, h2.2, fun p hp => ?_⟩
            have hb := List.all_eq_true.mp h3 p hp
            simpa using hb
          · intro _
            rfl
        · rw [if_neg h3]
          constructor
          · intro hc
            exact absurd hc (by simp)
          · rintro ⟨_, _, _, hz⟩
            refine absurd (List.all_eq_true.mpr fun p hp => ?_) h3
            rw [beq_iff_eq]
            exact hz p hp
  · intro h
    unfold tensordot.validate
    rw [if_pos h]
  · intro h1 h2
    unfold tensordot.validate
    rw [if_neg (by omega), if_pos h2]
  · intro h1 h2 h3 hex
    unfold tensordot.validate
    rw [if_neg (by omega), if_neg (by omega), if_neg ?_]
    intro hall
    obtain ⟨p, hp, hne⟩ := hex
    have hb := List.all_eq_true.mp hall p hp
    simp only [beq_iff_eq] at hb
    exact hne hb
  · unfold tensordot.run
    cases h : tensordot.validate aShape bShape aAxes bAxes with
    | ok u => cases u; rfl
    | error e => rfl

/-- C9: with `gain_bias_invariant=True` and no mask, when the
mean-subtracted model `_g` is identically zero the gain-fit denominator
`sum(_g**2)` is zero, the division raises under `np.seterr(all='raise')`,
and `sserror.forward` fails with `ZeroDivisionError('g must be
nonzero')` instead of returning a NaN/Inf value. -/
theorem sserror_degenerate_gain (m n : ℕ) (f g : ℕ → ℕ → ℚ)
    (hdeg : ∀ i, i < m → ∀ j, j < n → sserror.G m n g i j = 0) :
    sserror.forward m n f g = .error "ZeroDivisionError: g must be nonzero" := by
  have hden : sum2 m n (fun i j => sserror.G m n g i j ^ 2) = 0 := by
    unfold sum2
    apply Finset.sum_eq_zero
    intro i hi
    apply Finset.sum_eq_zero
    intro j hj
    show sserror.G m n g i j ^ 2 = 0
    rw [hdeg i (Finset.mem_range.mp hi) j (Finset.mem_range.mp hj)]
    ring
  have hall : ((List.range m).all
      fun i => (List.range n).all fun j => sserror.G m n g i j == 0) = true := by
    rw [List.all_eq_true]
    intro i hi
    rw [List.all_eq_true]
    intro j hj
    rw [beq_iff_eq]
    exact hdeg i (List.mem_range.mp hi) j (List.mem_range.mp hj)
  have hfit : sserror.fitGain m n (sserror.G m n f) (sserror.G m n g)
      = .error "ZeroDivisionError: g must be nonzero" := by
    unfold sserror.fitGain
    rw [if_pos hden, if_pos hall]
  unfold sserror.forward
  simp only [hfit]

theorem sserror_degenerate_gain_witness :
    (∀ i, i < 1 → ∀ j, j < 1 → sserror.G 1 1 (fun _ _ => (5:ℚ)) i j = 0)
    ∧ sserror.forward 1 1 (fun _ _ => (3:ℚ)) (fun _ _ => (5:ℚ))
        = .error "ZeroDivisionError: g must be nonzero" := by
  have hdeg : ∀ i, i < 1 → ∀ j, j < 1 → sserror.G 1 1 (fun _ _ => (5:ℚ)) i j = 0 := by
    decide
  exact ⟨hdeg, sserror_degenerate_gain 1 1 (fun _ _ => 3) (fun _ _ => 5) hdeg⟩

/-- C10 (code behavior at the failing input): for an array built with
`mask=None`, `__init__` stores `np.asarray(None, dtype=bool)` — a 0-d
`False` array — so `flatten(apply_mask=True)` takes the masked branch
and `data[~mask]` boolean-indexes with the 0-d scalar `True`, returning
all elements but under an extra leading length-1 axis: for 2×2 data the
result has shape `(1, 2, 2)`, not one dimension as the claim (and the
method's own docstring) require. -/
theorem flatten_mask_none_not_flat :
    flatten (arrayInit ⟨[2,2], [1,2,3,4]⟩ none) true
        = ⟨[1,2,2], [1,2,3,4]⟩
    ∧ (flatten (arrayInit ⟨[2,2], [1,2,3,4]⟩ none) true).shape.length ≠ 1
    ∧ flatten (arrayInit ⟨[2,2], [1,2,3,4]⟩
          (some ⟨[2,2], [true,false,true,false]⟩)) true
        = ⟨[2], [2,4]⟩ := by
  refine ⟨by decide, by decide, by decide⟩

theorem einsum_backward_guard_witness :
    einsum.backwardStep (α := ℕ) [['a','b'],['b','c']] ['a','c'] [5,6] 9 0
        = .ok ([['a','c'],['b','c']], ['a','b'], [9,6]) := by
  have h := ((einsum_backward_guard (α := ℕ) [['a','b'],['b','c']] ['a','c'] [5,6] 9 0).1).mpr
    (by decide)
  rw [h]
  decide

theorem tensordot_validation_witness :
    tensordot.validate [2,3] [3,4] [1] [0] = .ok ()
    ∧ tensordot.validate [2] [3] [0,1] [0] = .error "axes count mismatch" := by
  have h := tensordot_validation [2,3] [3,4] [1] [0]
  have h2 := tensordot_validation [2] [3] [0,1] [0]
  exact ⟨h.1.mpr (by decide), h2.2.1 (by decide)⟩
